import Mathlib

/-!
Verification of the ingestion-and-inference core of the Allocation Visualizer
(src/src/App.jsx) against its natural-language specification.

The JavaScript source is shallowly embedded:
* cell text is `String` (manipulated through its `data : List Char` so that
  every operation is structurally recursive and kernel-evaluable);
* JavaScript numbers are `JSNum` (an exact rational for finite values, plus
  the three non-finite values `inf`, `negInf`, `nan`); finite arithmetic is
  exact, which is the standard idealisation of float arithmetic at the small
  magnitudes exercised here, while the NaN/Infinity propagation rules follow
  IEEE-754 exactly;
* `String(Number(...))`-style coercions, falsy tests (`||`), and
  `undefined` lookups are modelled explicitly where the source relies on them;
* row objects are association lists keyed by header name, in header order.

Definitions follow the source functions `parseCsv`, `detectDelimiter`,
`splitCsvLine`, `sanitizeHeaders`, `detectColumns`, `normalizeRow`,
`expandRows`, `aggregate` and the `filteredRows` predicate, keeping their
names.  Theorems `c1_*` … `c10_*` settle the ten specification claims.
-/

/-- ASCII lower-casing of one character, as JavaScript's `toLowerCase`
acts on ASCII input (the only input the heuristics ever compare). -/
def lowerC (c : Char) : Char :=
  if 'A' ≤ c ∧ c ≤ 'Z' then Char.ofNat (c.toNat + 32) else c

/-- ASCII lower-casing of a string (JS `String.prototype.toLowerCase`). -/
def lowerS (s : String) : String := ⟨s.data.map lowerC⟩

/-- JavaScript whitespace test restricted to the ASCII whitespace that can
occur in a delimited text file. -/
def wsChar (c : Char) : Bool := c = ' ' ∨ c = '\t' ∨ c = '\n' ∨ c = '\r'

/-- Trim (JS `trim`): drop leading and trailing whitespace characters. -/
def trimC (l : List Char) : List Char :=
  ((l.dropWhile wsChar).reverse.dropWhile wsChar).reverse

/-- JS `String.prototype.trim` on a Lean string. -/
def jsTrim (s : String) : String := ⟨trimC s.data⟩

/-- JS `String.prototype.trimEnd`: drop trailing whitespace only. -/
def jsTrimEnd (s : String) : String := ⟨(s.data.reverse.dropWhile wsChar).reverse⟩

/-- Decide whether the character list `sub` occurs as a contiguous
infix of `s` (JS `String.prototype.includes`). -/
def containsSub (sub : List Char) : List Char → Bool
  | [] => sub.isPrefixOf []
  | c :: rest => sub.isPrefixOf (c :: rest) || containsSub sub rest

/-- JS `a.includes(b)` on strings. -/
def includesS (s sub : String) : Bool := containsSub sub.data s.data

/-- The decimal digit character for `d` (meaningful for `d < 10`). -/
def decDigit (d : Nat) : Char := Char.ofNat (48 + d)

/-- Decimal digit characters of `n`, most significant first; the first
argument is recursion fuel (any fuel `> n` is enough). -/
def decChars : Nat → Nat → List Char
  | 0, _ => []
  | fuel + 1, n =>
      if n < 10 then [decDigit n] else decChars fuel (n / 10) ++ [decDigit (n % 10)]

/-- Decimal representation of a natural number, as JS template literals
(`` `${n}` ``-style interpolation) print it. -/
def natToDec (n : Nat) : String := ⟨decChars (n + 1) n⟩

/-- Numeric value of a list of decimal digit characters (most significant
first), the reading inverse to 'decChars'. -/
def decVal (l : List Char) : Nat := l.foldl (fun a c => a * 10 + (c.toNat - 48)) 0

/-- A JavaScript number: an exact rational for finite values, positive and
negative infinity, and NaN. -/
inductive JSNum where
  | finite (q : ℚ)
  | inf
  | negInf
  | nan
deriving DecidableEq

namespace JSNum

/-- JS `isNaN` on an already-converted number. -/
def isNaN : JSNum → Bool
  | nan => true
  | _ => false

/-- Finiteness (true exactly on `finite` values). -/
def isFinite : JSNum → Bool
  | finite _ => true
  | _ => false

/-- The rational carried by a finite value (0 for the non-finite ones). -/
def toQ : JSNum → ℚ
  | finite q => q
  | _ => 0

/-- IEEE-754 addition on the embedded domain. -/
def add : JSNum → JSNum → JSNum
  | finite a, finite b => finite (a + b)
  | nan, _ => nan
  | _, nan => nan
  | inf, negInf => nan
  | negInf, inf => nan
  | inf, _ => inf
  | _, inf => inf
  | negInf, _ => negInf
  | _, negInf => negInf

/-- IEEE-754 negation. -/
def neg : JSNum → JSNum
  | finite a => finite (-a)
  | inf => negInf
  | negInf => inf
  | nan => nan

/-- IEEE-754 subtraction (`a - b`). -/
def sub (a b : JSNum) : JSNum := add a (neg b)

/-- JS strict `>` comparison: false whenever NaN is involved. -/
def gt : JSNum → JSNum → Bool
  | finite a, finite b => a > b
  | inf, finite _ => true
  | inf, negInf => true
  | finite _, negInf => true
  | _, _ => false

/-- JS `< 0` test on a number (false for NaN). -/
def ltZero : JSNum → Bool
  | finite q => q < 0
  | negInf => true
  | _ => false

/-- JS falsiness of a number: `0` (and `-0`) and `NaN` are falsy. -/
def falsy : JSNum → Bool
  | finite q => q = 0
  | nan => true
  | _ => false

end JSNum

/-- The guard `v || 0` applied to a possibly-absent number (`Map.get` result):
`undefined`, `0` and `NaN` all yield `0`. -/
def orZero : Option JSNum → JSNum
  | none => JSNum.finite 0
  | some v => if v.falsy then JSNum.finite 0 else v

/-- Exact value of a decimal literal with integer digits `ip`, fraction
digits `fp` and signed exponent `ex`, as parsed by JS `Number`. -/
def decLitVal (ip fp : List Char) (ex : Option (Bool × Nat)) : ℚ :=
  let base : ℚ := (decVal ip : ℚ) + (decVal fp : ℚ) / ((10 : ℚ) ^ fp.length)
  match ex with
  | none => base
  | some (true, e) => base * (10 : ℚ) ^ e
  | some (false, e) => base / (10 : ℚ) ^ e

/-- Digit test used by the `Number` grammar. -/
def isDigitC (c : Char) : Bool := '0' ≤ c ∧ c ≤ '9'

/-- Hexadecimal digit value, if `c` is a hex digit. -/
def hexVal (c : Char) : Option Nat :=
  if '0' ≤ c ∧ c ≤ '9' then some (c.toNat - 48)
  else if 'a' ≤ c ∧ c ≤ 'f' then some (c.toNat - 87)
  else if 'A' ≤ c ∧ c ≤ 'F' then some (c.toNat - 55)
  else none

/-- Value of a non-empty list of hex digits, or `none` on a bad digit. -/
def hexChars (l : List Char) : Option Nat :=
  l.foldl (fun acc c => acc.bind fun a => (hexVal c).map fun d => a * 16 + d)
    (if l = [] then none else some 0)

/-- Digit value below base `b`, for the octal and binary literal forms. -/
def baseVal (b : Nat) (c : Char) : Option Nat :=
  if '0' ≤ c ∧ c.toNat < 48 + b then some (c.toNat - 48) else none

/-- Value of a non-empty digit list in base `b`, or `none` on a bad digit. -/
def baseChars (b : Nat) (l : List Char) : Option Nat :=
  l.foldl (fun acc c => acc.bind fun a => (baseVal b c).map fun d => a * b + d)
    (if l = [] then none else some 0)

/-- Parse the `StrDecimalLiteral` grammar of JS `Number` after the optional
sign: digits, optional fraction, optional exponent; at least one digit must
be present outside the exponent.  Returns `none` when the text is not a
decimal literal. -/
def parseDec (cs : List Char) : Option ℚ :=
  let ip := cs.takeWhile isDigitC
  let rest := cs.dropWhile isDigitC
  let fpRest : List Char × List Char :=
    match rest with
    | '.' :: t => (t.takeWhile isDigitC, t.dropWhile isDigitC)
    | _ => ([], rest)
  let fp := fpRest.1
  let rest2 := fpRest.2
  if ip = [] ∧ fp = [] then none
  else
    match rest2 with
    | [] => some (decLitVal ip fp none)
    | e :: t =>
        if e = 'e' ∨ e = 'E' then
          let sgnT : Bool × List Char :=
            match t with
            | '+' :: t' => (true, t')
            | '-' :: t' => (false, t')
            | _ => (true, t)
          let ds := sgnT.2
          if ds ≠ [] ∧ ds.all isDigitC then
            some (decLitVal ip fp (some (sgnT.1, decVal ds)))
          else none
        else none

/-- JS `Number(string)` (ECMAScript `StringToNumber`): trim, empty → 0,
hex/octal/binary literals (unsigned), otherwise an optional sign followed
by `Infinity` or a decimal literal; anything else is NaN.  (Finite results
are exact rationals; decimal literals large enough to overflow a float are
not modelled.) -/
def jsStringToNumber (s : String) : JSNum :=
  let cs := trimC s.data
  match cs with
  | [] => JSNum.finite 0
  | '0' :: x :: t =>
      if x = 'x' ∨ x = 'X' then
        match hexChars t with
        | some n => JSNum.finite (n : ℚ)
        | none => JSNum.nan
      else if x = 'o' ∨ x = 'O' then
        match baseChars 8 t with
        | some n => JSNum.finite (n : ℚ)
        | none => JSNum.nan
      else if x = 'b' ∨ x = 'B' then
        match baseChars 2 t with
        | some n => JSNum.finite (n : ℚ)
        | none => JSNum.nan
      else
        match parseDec ('0' :: x :: t) with
        | some q => JSNum.finite q
        | none => JSNum.nan
  | c :: t =>
      let sgnRest : Bool × List Char :=
        match c :: t with
        | '+' :: t' => (true, t')
        | '-' :: t' => (false, t')
        | l => (true, l)
      if sgnRest.2 = "Infinity".data then
        if sgnRest.1 then JSNum.inf else JSNum.negInf
      else
        match parseDec sgnRest.2 with
        | some q => JSNum.finite (if sgnRest.1 then q else -q)
        | none => JSNum.nan

/-- Strip every comma and percent sign (`String(val).replace(/,/g, '')
.replace(/%/g, '')`). -/
def stripNum (s : String) : String := ⟨s.data.filter (fun c => ¬ (c = ',' ∨ c = '%'))⟩

/-- The `numeric` helper shared by `normalizeRow` and `expandRows`:
`Number(String(val).replace(/,/g, '').replace(/%/g, '').trim())`, with a
NaN result coerced to 0. -/
def numericJS (s : String) : JSNum :=
  let n := jsStringToNumber (jsTrim (stripNum s))
  if n.isNaN then JSNum.finite 0 else n

/-- JS `String(x)` for a cell lookup that may be `undefined`. -/
def cellStr (o : Option String) : String := o.getD "undefined"

/-! ## Tokenizer (`parseCsv` and helpers) -/

/-- One parsed row: an association list from sanitized header name to raw
cell text, in header order (the JS object built by `parseCsv`). -/
abbrev RowMap := List (String × String)

/-- Output of the Tokenizer (`parseCsv`). -/
structure ParsedTable where
  headers : List String
  rows : List RowMap
  rawHeaders : List String
deriving DecidableEq

/-- Replace every CRLF by LF (`text.replace(/\r\n/g, '\n')`),
left to right and non-overlapping. -/
def replCRLF : List Char → List Char
  | '\r' :: '\n' :: rest => '\n' :: replCRLF rest
  | c :: rest => c :: replCRLF rest
  | [] => []

/-- Split a character list at every occurrence of the delimiter `d`
(JS `String.prototype.split` with a single-character separator). -/
def splitOnC (d : Char) : List Char → List (List Char)
  | [] => [[]]
  | c :: rest =>
      match splitOnC d rest with
      | [] => [[]]
      | g :: gs => if c = d then [] :: g :: gs else (c :: g) :: gs

/-- Embedding of `detectDelimiter`: count commas and tabs in the first non-blank line
and pick tab only when strictly more frequent. -/
def detectDelimiter (lines : List String) : Char :=
  let firstLine := (lines.find? (fun l => jsTrim l ≠ "")).getD ""
  let commaCount := firstLine.data.count ','
  let tabCount := firstLine.data.count '\t'
  if tabCount > commaCount then '\t' else ','

/-- The quote-aware scanning loop of `splitCsvLine` for the comma
delimiter: a quote toggles the in-quotes state, a doubled quote inside
quotes emits one literal quote, and the delimiter splits only when not
inside quotes. -/
def splitQuoted (delim : Char) : List Char → List Char → Bool → List String
  | [], cur, _ => [⟨cur.reverse⟩]
  | '"' :: '"' :: rest, cur, true => splitQuoted delim rest ('"' :: cur) true
  | '"' :: rest, cur, inQ => splitQuoted delim rest cur (!inQ)
  | c :: rest, cur, inQ =>
      if c = delim ∧ !inQ then ⟨cur.reverse⟩ :: splitQuoted delim rest [] inQ
      else splitQuoted delim rest (c :: cur) inQ

/-- Embedding of `splitCsvLine`: verbatim tab splitting, quote-aware comma splitting. -/
def splitCsvLine (line : String) (delimiter : Char) : List String :=
  if delimiter = '\t' then (splitOnC '\t' line.data).map (fun g => (⟨g⟩ : String))
  else splitQuoted delimiter line.data [] false

/-- The header-qualification test of `parseCsv`: at least
`max(2, ceil(0.3 × cells))` cells contain an alphabetic character.
(`Math.ceil(cells.length * 0.3)` is exact at these sizes, embedded as
`⌈3·n/10⌉` over ℕ.) -/
def isHeaderRow (cells : List String) : Bool :=
  let texty := (cells.filter (fun c => c.data.any Char.isAlpha)).length
  texty ≥ max 2 ((3 * cells.length + 9) / 10)

/-- The header-scanning loop of `parseCsv`: return the index of the first
row qualifying under `isHeaderRow` together with its cell count; if no row
qualifies, fall back to the first widest row seen (strict improvement
updates, so ties keep the earliest index). -/
def findHeaderAux : List (List String) → Nat → Nat → Nat → Nat × Nat
  | [], _, hIdx, maxCols => (hIdx, maxCols)
  | cells :: rest, i, hIdx, maxCols =>
      if isHeaderRow cells then (i, cells.length)
      else if cells.length > maxCols then findHeaderAux rest (i + 1) i cells.length
      else findHeaderAux rest (i + 1) hIdx maxCols

/-- Header index and running column maximum for a list of cell rows. -/
def findHeader (allCells : List (List String)) : Nat × Nat :=
  findHeaderAux allCells 0 0 0

/-- Candidate name number `k` for base name `base` in `sanitizeHeaders`:
the base itself, then `base_1`, `base_2`, …. -/
def candName (base : String) (k : Nat) : String :=
  if k = 0 then base else base ++ "_" ++ natToDec k

/-- The collision-resolution loop of `sanitizeHeaders`: the first candidate
whose lowercased form is not yet used.  A fresh candidate always exists
among the first `used.length + 1` (the candidates have pairwise distinct
lowercased forms), which bounds the search; the fallback arm is
unreachable. -/
def pickFresh (base : String) (used : List String) : String :=
  match (List.range (used.length + 1)).find?
      (fun k => ¬ used.contains (lowerS (candName base k))) with
  | some k => candName base k
  | none => base

/-- Embedding of `sanitizeHeaders`, sequentially threading the set of used lowercased
names: trim each header, replace an empty one by `col<position>`, and
suffix `_<n>` until the lowercased name is unused. -/
def sanitizeAux : List String → Nat → List String → List String
  | [], _, _ => []
  | h :: rest, idx, used =>
      let base := if jsTrim h = "" then "col" ++ natToDec (idx + 1) else jsTrim h
      let name := pickFresh base used
      name :: sanitizeAux rest (idx + 1) (lowerS name :: used)

/-- The `sanitizeHeaders` function of the source. -/
def sanitizeHeaders (headers : List String) : List String := sanitizeAux headers 0 []

/-- Right-pad `cells` with empty strings to the header length and key the
row by header name (`headers.forEach((h, idx) => row[h] = padded[idx])`;
cells beyond the header length are dropped, as a JS object keyed by the
headers holds exactly one entry per header). -/
def materializeRow (headers : List String) (cells : List String) : RowMap :=
  headers.zip (cells ++ List.replicate (headers.length - cells.length) "")

/-- The `lines` local of `parseCsv`: normalize CRLF, split on LF, strip
trailing whitespace per line, drop blank lines. -/
def parseCsvLines (text : String) : List String :=
  ((splitOnC '\n' (replCRLF text.data)).map
    (fun g => jsTrimEnd ⟨g⟩)).filter (fun l => jsTrim l ≠ "")

/-- The body of `parseCsv` after the empty-input early return, operating
on the non-blank lines. -/
def parseCsvCore (lines : List String) : ParsedTable :=
    let delimiter := detectDelimiter lines
    let allCells := lines.map (fun l => splitCsvLine l delimiter)
    let hm := findHeader allCells
    let headerIdx := hm.1
    let maxCols := hm.2
    let headerCells0 := (allCells.get? headerIdx).getD []
    let firstDataCells :=
      ((allCells.drop (headerIdx + 1)).find?
        (fun c => c.any (fun v => jsTrim v ≠ ""))).getD []
    let headerCells1 :=
      match headerCells0 with
      | h0 :: _ =>
          if h0 ≠ "" ∧ includesS (lowerS h0) "branch" ∧
              firstDataCells.length = headerCells0.length + 1
          then "Area" :: headerCells0 else headerCells0
      | [] => headerCells0
    let headerCells :=
      if headerCells1.length < maxCols then
        headerCells1 ++ (List.range (maxCols - headerCells1.length)).map
          (fun i => "col" ++ natToDec (headerCells1.length + i + 1))
      else headerCells1
    let rawHeaders := headerCells
    let headers := sanitizeHeaders headerCells
    let rows := ((allCells.drop (headerIdx + 1)).filter
        (fun cells => ¬ cells.all (fun c => jsTrim c = ""))).map
      (materializeRow headers)
    ⟨headers, rows, rawHeaders⟩

/-- The `parseCsv` function of the source. -/
def parseCsv (text : String) : ParsedTable :=
  if parseCsvLines text = [] then ⟨[], [], []⟩
  else parseCsvCore (parseCsvLines text)

/-! ## Schema Inferencer (`detectColumns`) -/

/-- Output of the Schema Inferencer (the object returned by
`detectColumns`). -/
structure RoleMap where
  headers : List String
  productKey : Option String
  branchKey : Option String
  areaKey : Option String
  itemKey : Option String
  metricKey : Option String
  productColumns : List String
  syntheticProduct : Bool
  syntheticProductLabel : String
  rawHeaders : List String
deriving DecidableEq

/-- The `findHeader` helper of `detectColumns`: the first header whose lowercased
form is in the candidate list (`lowerHeaders.findIndex` followed by
indexing back into `headers`). -/
def findHeaderIn (headers : List String) (candidates : List String) : Option String :=
  headers.find? (fun h => candidates.contains (lowerS h))

/-- The `looksNumeric` helper of `detectColumns` on a possibly-absent cell value:
null/undefined is not numeric; otherwise strip commas and percent signs,
trim, and require a non-empty string that parses to a number. -/
def looksNumeric : Option String → Bool
  | none => false
  | some s =>
      let cleaned := jsTrim (stripNum s)
      cleaned ≠ "" && !(jsStringToNumber cleaned).isNaN

/-- Headers having at least one numeric-looking value in some row. -/
def numericHeaders (headers : List String) (rows : List RowMap) : List String :=
  headers.filter (fun h => rows.any (fun r => looksNumeric (r.lookup h)))

/-- Keyword list for the product role. -/
def productCandidates : List String :=
  ["product", "item", "sku", "product name", "material", "pork bbq"]

/-- Keyword list for the branch role. -/
def branchCandidates : List String := ["branch", "store", "location", "office"]

/-- Keyword list for the area role. -/
def areaCandidates : List String := ["area", "region", "zone", "territory"]

/-- Keyword list for the item role. -/
def itemCandidates : List String :=
  ["item description", "item", "description", "item desc"]

/-- Keyword list for the metric role. -/
def metricCandidates : List String :=
  ["alloc", "average", "avg", "value", "amount", "metric", "qty", "quantity",
   "total", "sales", "volume", "pork bbq", "daily sales", "kg conversion per pc"]

/-- The area fallback of `detectColumns`: when no area keyword matched but
a branch column exists, promote the first column to area if it is not the
branch column itself, has more than 3 non-empty trimmed values, and those
values are not all numeric. -/
def areaKeyOf (headers : List String) (rows : List RowMap) : Option String :=
  let branchKey := findHeaderIn headers branchCandidates
  match findHeaderIn headers areaCandidates with
  | some a => some a
  | none =>
      match branchKey, headers with
      | some bk, firstHeader :: _ =>
          let sampleValues := (rows.map
            (fun r => jsTrim ((r.lookup firstHeader).getD ""))).filter (fun v => v ≠ "")
          let allNumeric := sampleValues ≠ [] ∧ sampleValues.all (fun v => looksNumeric (some v))
          if firstHeader ≠ bk ∧ sampleValues.length > 3 ∧ ¬ allNumeric then
            some firstHeader
          else none
      | _, _ => none

/-- Lowercased names of the headers claimed by the four label roles. -/
def reservedOf (headers : List String) (rows : List RowMap) : List String :=
  ([findHeaderIn headers productCandidates, findHeaderIn headers branchCandidates,
    areaKeyOf headers rows, findHeaderIn headers itemCandidates].filterMap id).map lowerS

/-- The product-column set computed from numeric headers: numeric headers
not already claimed by a label role. -/
def computedProductColumns (headers : List String) (rows : List RowMap) : List String :=
  (numericHeaders headers rows).filter
    (fun h => ¬ (reservedOf headers rows).contains (lowerS h))

/-- The fixed product-name vocabulary of the positional override. -/
def fixedProducts : List String :=
  ["backribs", "chicken paa", "chicken pecho", "pork bbq", "spareribs"]

/-- Headers at positions 3–7 (1-indexed; `headers.slice(2, 7)`) that are
non-empty and whose lowercased name is in the fixed vocabulary. -/
def fixedMatchOf (headers : List String) : List String :=
  (((headers.drop 2).take 5).filter (fun h => h ≠ "")).filter
    (fun h => fixedProducts.contains (lowerS h))

/-- The last-resort positional fallback: all headers at positions 3–7 that
are non-empty and not whitespace-only. -/
def fallbackSlice (headers : List String) : List String :=
  ((headers.drop 2).take 5).filter (fun h => h ≠ "" ∧ jsTrim h ≠ "")

/-- The final product-column set of `detectColumns`: the fixed-position
override replaces the computed set entirely when it matches; otherwise an
empty computed set with at least 3 headers falls back to the positional
slice (kept only when itself non-empty). -/
def productColumnsOf (headers : List String) (rows : List RowMap) : List String :=
  let productColumns := computedProductColumns headers rows
  let fixedMatch := fixedMatchOf headers
  if fixedMatch ≠ [] then fixedMatch
  else if productColumns = [] ∧ headers.length ≥ 3 then
    let slice := fallbackSlice headers
    if slice ≠ [] then slice else productColumns
  else productColumns

/-- Metric key resolution: the metric keyword match, or the single product
column when exactly one was found. -/
def finalMetricKeyOf (headers : List String) (rows : List RowMap) : Option String :=
  match findHeaderIn headers metricCandidates with
  | some m => some m
  | none =>
      match productColumnsOf headers rows with
      | [c] => some c
      | _ => none

/-- The denylist of the synthetic-label scan. -/
def bannedLabelParts : List String :=
  ["sum", "avg", "average", "alloc", "allocation", "conversion", "target",
   "total", "uom", "branch", "area", "metric", "value", "amount", "qty",
   "quantity", "sales", "volume", "%", "kg"]

/-- The `isProductish` test: the lowercased header contains no banned substring. -/
def isProductish (h : String) : Bool :=
  ¬ bannedLabelParts.any (fun b => includesS (lowerS h) b)

/-- Trimmed, non-empty raw headers (`cleanedRaw`). -/
def cleanedRawOf (rawHeaders : List String) : List String :=
  (rawHeaders.map jsTrim).filter (fun h => h ≠ "")

/-- The synthetic product label chosen when neither a product key nor
product columns exist: the first surviving raw header, else the literal
`"All Products"`.  The source's final `if (!syntheticProductLabel &&
finalMetricKey)` reassignment is kept verbatim; it can never fire because
the label is already non-empty at that point. -/
def syntheticLabelOf (rawHeaders : List String) (finalMetricKey : Option String) : String :=
  let productish := (cleanedRawOf rawHeaders).find? isProductish
  let label := productish.getD "All Products"
  if label = "" then
    match finalMetricKey with
    | some mk => mk
    | none => label
  else label

/-- The `detectColumns` function of the source. -/
def detectColumns (headers : List String) (rows : List RowMap)
    (rawHeaders : List String) : RoleMap :=
  let productKey := findHeaderIn headers productCandidates
  let branchKey := findHeaderIn headers branchCandidates
  let areaKey := areaKeyOf headers rows
  let itemKey := findHeaderIn headers itemCandidates
  let productColumns := productColumnsOf headers rows
  let finalMetricKey := finalMetricKeyOf headers rows
  let synthetic := productKey = none ∧ productColumns = []
  ⟨headers, productKey, branchKey, areaKey, itemKey, finalMetricKey,
    productColumns, synthetic,
    (if synthetic then syntheticLabelOf rawHeaders finalMetricKey else "All Products"),
    rawHeaders⟩

/-! ## Row Expander (`normalizeRow`, `expandRows`) -/

/-- A normalized record. -/
structure NRec where
  product : String
  item : String
  branch : String
  area : String
  metric : JSNum
deriving DecidableEq

/-- The `cleanText` helper: trimmed row value at an optional key, empty when the key
is unset (`key ? String(row[key] ?? '').trim() : ''`). -/
def cleanText (row : RowMap) : Option String → String
  | none => ""
  | some k => jsTrim ((row.lookup k).getD "")

/-- The `normalizeRow` function of the source (the long path). -/
def normalizeRow (row : RowMap) (meta : RoleMap) : NRec :=
  let syntheticLabel :=
    if meta.syntheticProductLabel = "" then "All Products" else meta.syntheticProductLabel
  ⟨(match meta.productKey with
    | some k => cleanText row (some k)
    | none => syntheticLabel),
   cleanText row meta.itemKey,
   cleanText row meta.branchKey,
   cleanText row meta.areaKey,
   numericJS (match meta.metricKey with
     | some k => cellStr (row.lookup k)
     | none => "0")⟩

/-- The `expandRows` function of the source: the wide path emits one record per product
column per row (the `forEach`/`push` loops, i.e. a flat map); the long
path defers to `normalizeRow`. -/
def expandRows (rows : List RowMap) (meta : RoleMap) : List NRec :=
  if meta.productColumns.length > 0 then
    rows.flatMap (fun row =>
      meta.productColumns.map (fun col =>
        ⟨col, cleanText row meta.itemKey, cleanText row meta.branchKey,
         cleanText row meta.areaKey, numericJS (cellStr (row.lookup col))⟩))
  else rows.map (fun r => normalizeRow r meta)

/-! ## Filtering (`filteredRows`) and aggregation (`aggregate`) -/

/-- The filter state: `"__all"` encodes "no constraint". -/
structure Filters where
  product : String
  branch : String
  area : String
  group : String
deriving DecidableEq

/-- The predicate of the `filteredRows` memo: each of product, branch and
area passes when unconstrained or exactly equal; a missing branch or area
key short-circuits its clause to true. -/
def rowPasses (meta : RoleMap) (filters : Filters) (row : NRec) : Bool :=
  let productOk := filters.product = "__all" ∨ row.product = filters.product
  let branchOk := meta.branchKey = none ∨ filters.branch = "__all" ∨ row.branch = filters.branch
  let areaOk := meta.areaKey = none ∨ filters.area = "__all" ∨ row.area = filters.area
  productOk ∧ branchOk ∧ areaOk

/-- The `filteredRows` memo as a function. -/
def filteredRows (meta : RoleMap) (filters : Filters) (dataRows : List NRec) : List NRec :=
  dataRows.filter (rowPasses meta filters)

/-- One `(label, value)` chart entry. -/
structure LV where
  label : String
  value : JSNum
deriving DecidableEq

/-- The grouping key of `aggregate`
(`dimension === 'branch' ? 'branch' : dimension === 'area' ? 'area' : 'product'`). -/
def dimValue (dimension : String) (r : NRec) : String :=
  if dimension = "branch" then r.branch
  else if dimension = "area" then r.area
  else r.product

/-- Empty labels become `"Unspecified"` (`r[key] || 'Unspecified'`). -/
def relabel (s : String) : String := if s = "" then "Unspecified" else s

/-- JS `Map.prototype.get` on the insertion-ordered entry list. -/
def mapGetLV (m : List LV) (k : String) : Option JSNum :=
  (m.find? (fun p => p.label = k)).map (fun p => p.value)

/-- JS `Map.prototype.set`: update in place keeping the insertion position,
or append a new entry at the end. -/
def mapSetLV : List LV → String → JSNum → List LV
  | [], k, v => [⟨k, v⟩]
  | p :: rest, k, v =>
      if p.label = k then ⟨k, v⟩ :: rest else p :: mapSetLV rest k v

/-- One iteration of the totals loop of `aggregate`:
`totals.set(label, (totals.get(label) || 0) + r.metric)`. -/
def aggStep (dimension : String) (m : List LV) (r : NRec) : List LV :=
  let label := relabel (dimValue dimension r)
  mapSetLV m label (JSNum.add (orZero (mapGetLV m label)) r.metric)

/-- The grouped totals of `aggregate`, in first-encounter label order
(JS `Map` preserves insertion order; `Array.from(...entries()).map` keeps
it). -/
def groupPairs (rows : List NRec) (dimension : String) : List LV :=
  rows.foldl (aggStep dimension) []

/-- Stable insertion of `x` into the already-sorted accumulator under the
comparator `(a, b) => b.value - a.value`: `x` moves before `y` exactly
when the comparator result is `< 0` (a NaN comparator result keeps the
existing order, as V8's stable sort does). -/
def insLV (x : LV) : List LV → List LV
  | [] => [x]
  | y :: ys =>
      if (JSNum.sub y.value x.value).ltZero then x :: y :: ys
      else y :: insLV x ys

/-- The stable descending sort of `aggregate`
(`.sort((a, b) => b.value - a.value)`; JS `Array.prototype.sort` is
stable). -/
def sortLV (l : List LV) : List LV := l.foldl (fun acc x => insLV x acc) []

/-- The `aggregate` function of the source. -/
def aggregate (rows : List NRec) (dimension : String) : List LV :=
  sortLV (groupPairs rows dimension)

/-! ## Ingestion outcome (`handleFileChange`) -/

/-- The three outcomes the ingestion trigger can report. -/
inductive IngestResult where
  | noData
  | insufficientSchema
  | ok (records : List NRec) (meta : RoleMap)
deriving DecidableEq

/-- The ingestion decision sequence of `handleFileChange`: no data rows,
then the insufficient-schema check `!metricKey && !productColumns.length`,
then expansion. -/
def ingest (text : String) : IngestResult :=
  let parsed := parseCsv text
  if parsed.rows = [] then IngestResult.noData
  else
    let detected := detectColumns parsed.headers parsed.rows parsed.rawHeaders
    if detected.metricKey = none ∧ detected.productColumns = [] then
      IngestResult.insufficientSchema
    else IngestResult.ok (expandRows parsed.rows detected) detected

/-! ## Specification-side definitions and concrete example inputs -/

/-- Deduplication keeping the first occurrence of each element, the order
"in which labels were first encountered" of the specification. -/
def firstOccurAux (seen : List String) : List String → List String
  | [] => []
  | x :: rest =>
      if seen.contains x then firstOccurAux seen rest
      else x :: firstOccurAux (x :: seen) rest

/-- First-encounter order of a list of labels. -/
def firstOccur (l : List String) : List String := firstOccurAux [] l

/-- The rational total recorded for label `l` (0 when the label is absent
or the recorded value is non-finite). -/
def valTotal (m : List LV) (l : String) : ℚ :=
  ((mapGetLV m l).getD (JSNum.finite 0)).toQ

/-- Left-to-right JS sum of a list of numbers. -/
def jsSumList (l : List JSNum) : JSNum := l.foldl JSNum.add (JSNum.finite 0)

/-- The wide path exactly as the specification words it: for each source
row, for each product column in declared order, one record whose product
is the column name, whose metric is the numeric-parsed cell, and whose
item/branch/area are the trimmed row values at the resolved keys. -/
def specWideExpand (rows : List RowMap) (meta : RoleMap) : List NRec :=
  rows.flatMap (fun row =>
    meta.productColumns.map (fun col =>
      ⟨col, cleanText row meta.itemKey, cleanText row meta.branchKey,
       cleanText row meta.areaKey, numericJS (cellStr (row.lookup col))⟩))

/-- Record acceptance as the specification words it: every constrained
dimension among product/branch/area is unconstrained or matches exactly;
a dimension whose role key is absent from the schema imposes nothing. -/
def specAccepts (meta : RoleMap) (filters : Filters) (row : NRec) : Prop :=
  (filters.product = "__all" ∨ row.product = filters.product) ∧
  (meta.branchKey ≠ none → filters.branch = "__all" ∨ row.branch = filters.branch) ∧
  (meta.areaKey ≠ none → filters.area = "__all" ∨ row.area = filters.area)

/-- Replace the branch filter value. -/
def setBranchFilter (f : Filters) (b : String) : Filters := ⟨f.product, b, f.area, f.group⟩

/-- Replace the area filter value. -/
def setAreaFilter (f : Filters) (a : String) : Filters := ⟨f.product, f.branch, a, f.group⟩

/-- Concrete input for the claim C1 counterexample: one header `"Total"`
(a metric keyword that is also on the label denylist) and one non-numeric
data row, so that a metric key resolves but no raw header survives the
denylist. -/
def c1ceHeaders : List String := ["Total"]

/-- The single data row of the C1 counterexample. -/
def c1ceRows : List RowMap := [[("Total", "abc")]]

/-- Wide-format role map over a single product column `"P"`, for the C2
counterexample. -/
def c2ceMeta : RoleMap :=
  ⟨["P"], none, none, none, none, none, ["P"], false, "All Products", ["P"]⟩

/-- A source row whose `"P"` cell is the text `"Infinity"`, which JS
`Number` parses to the infinite value. -/
def c2ceRows : List RowMap := [[("P", "Infinity")]]

/-- Role map of the specification's wide-expansion example (branch column
plus the product columns `Backribs` and `Spareribs`). -/
def c3exMeta : RoleMap :=
  ⟨["Branch", "Backribs", "Spareribs"], none, some "Branch", none, none, none,
   ["Backribs", "Spareribs"], false, "All Products", ["Branch", "Backribs", "Spareribs"]⟩

/-- The source row of the specification's wide-expansion example. -/
def c3exRows : List RowMap :=
  [[("Branch", "East"), ("Backribs", "10"), ("Spareribs", "5")]]

/-- Records whose metrics are `+∞`, `-∞` and `5` under one label: the sum
of the metrics is NaN, but the aggregation loop's `|| 0` guard resets the
running total after the opposite infinities cancel to NaN. -/
def c4ceRecs : List NRec :=
  [⟨"A", "", "", "", JSNum.inf⟩, ⟨"A", "", "", "", JSNum.negInf⟩,
   ⟨"A", "", "", "", JSNum.finite 5⟩]

/-- Role map used by the claim C5 witness: a branch key is resolved, the
area role is absent. -/
def c5wMeta : RoleMap :=
  ⟨["Branch"], none, some "Branch", none, none, some "Value", [], false,
   "All Products", ["Branch"]⟩

/-- Filters used by the claim C5 witness. -/
def c5wFilters : Filters := ⟨"__all", "East", "North", "product"⟩

/-- Record used by the claim C5 witness. -/
def c5wRec : NRec := ⟨"Widgets", "", "East", "", JSNum.finite 3⟩

/-- Headers triggering the fixed-position override (position 3 holds the
vocabulary name `Backribs`). -/
def c6wHeaders : List String := ["Branch", "X", "Backribs", "Other", "Spareribs"]

/-- Rows making `Other` a numeric header, so that the computed set would
not be the fixed-position subset. -/
def c6wRows : List RowMap := [[("Other", "7")]]

/-- Headers with no fixed-position vocabulary match and no numeric column:
the positional fallback applies. -/
def c6wHeaders2 : List String := ["A", "B", "C", "D"]

/-- The cell rows of the specification's header-detection example. -/
def c7exCells : List (List String) :=
  [["metadata", "", ""], ["Product", "Branch", "Value"], ["Widgets", "East", "10"]]

/-- The raw text of the specification's header-detection example. -/
def c7exText : String := "metadata,,\nProduct,Branch,Value\nWidgets,East,10"

/-- The raw text of the specification's insufficient-schema example, with
one (non-numeric) data row so that the no-data check does not fire
first. -/
def c9exText : String := "Notes,Comments\nabc,def"

/-- Records of the specification's tie-breaking example: A totals 5,
B totals 5, first-encounter order A before B. -/
def c4wRecs : List NRec :=
  [⟨"A", "", "", "", JSNum.finite 3⟩, ⟨"B", "", "", "", JSNum.finite 5⟩,
   ⟨"A", "", "", "", JSNum.finite 2⟩]

/-- The descending-order relation the chart entries are sorted under: the
later entry never strictly beats the earlier one. -/
def descOrd (a b : LV) : Prop := JSNum.gt b.value a.value = false

/-- Records for the claim C10 counterexample: metrics `+∞`, `-∞`, `7`
under one label. -/
def c10ceRecs : List NRec :=
  [⟨"B", "", "", "", JSNum.inf⟩, ⟨"B", "", "", "", JSNum.negInf⟩,
   ⟨"B", "", "", "", JSNum.finite 7⟩]

/-- Finite-metric records for the claim C10 witness, grouped over two
branch labels. -/
def c10wRecs : List NRec :=
  [⟨"P1", "", "East", "", JSNum.finite 4⟩, ⟨"P2", "", "West", "", JSNum.finite 6⟩,
   ⟨"P3", "", "East", "", JSNum.finite 1⟩]

/-! ## Order lemmas for the JS comparator -/

theorem jsGt_irrefl (a : JSNum) : JSNum.gt a a = false := by
  rcases a <;> simp [JSNum.gt]

theorem jsGt_asymm (a b : JSNum) (h : JSNum.gt a b = true) : JSNum.gt b a = false := by
  rcases a <;> rcases b <;> simp_all [JSNum.gt] <;> exact le_of_lt h

theorem jsGt_trans (a b c : JSNum) (hab : JSNum.gt a b = true)
    (hbc : JSNum.gt b c = true) : JSNum.gt a c = true := by
  rcases a <;> rcases b <;> rcases c <;> simp_all [JSNum.gt] <;> exact lt_trans hbc hab

/-- The comparator test of the sort (`b.value - a.value < 0`) coincides
with the strict comparison `a > b`. -/
theorem ltZero_sub (a b : JSNum) : (JSNum.sub b a).ltZero = JSNum.gt a b := by
  rcases a <;> rcases b <;>
    simp [JSNum.sub, JSNum.add, JSNum.neg, JSNum.ltZero, JSNum.gt, ← sub_eq_add_neg,
      sub_neg]

/-! ## The stable descending sort -/

theorem insLV_cons (x y : LV) (ys : List LV) :
    insLV x (y :: ys) =
      if JSNum.gt x.value y.value = true then x :: y :: ys else y :: insLV x ys := by
  simp [insLV, ltZero_sub]

theorem insLV_perm (x : LV) (l : List LV) : (insLV x l).Perm (x :: l) := by
  induction l with
  | nil => simp [insLV]
  | cons y ys ih =>
      rw [insLV_cons]
      by_cases h : JSNum.gt x.value y.value = true
      · simp [h]
      · simp only [h, if_false]
        exact (ih.cons y).trans (List.Perm.swap x y ys)

theorem mem_insLV (z x : LV) (l : List LV) : z ∈ insLV x l ↔ z = x ∨ z ∈ l := by
  rw [(insLV_perm x l).mem_iff, List.mem_cons]

theorem insLV_pairwise (x : LV) (l : List LV) (h : l.Pairwise descOrd) :
    (insLV x l).Pairwise descOrd := by
  induction l with
  | nil => simp [insLV, descOrd]
  | cons y ys ih =>
      rw [List.pairwise_cons] at h
      rw [insLV_cons]
      by_cases hxy : JSNum.gt x.value y.value = true
      · simp only [hxy, if_true]
        refine List.Pairwise.cons ?_ (List.Pairwise.cons h.1 h.2)
        intro z hz
        rcases List.mem_cons.mp hz with hzy | hzys
        · subst hzy; exact jsGt_asymm _ _ hxy
        · have hyz := h.1 z hzys
          unfold descOrd at hyz ⊢
          by_cases hzx : JSNum.gt z.value x.value = true
          · exact absurd (jsGt_trans _ _ _ hzx hxy) (by simp [hyz])
          · simpa using hzx
      · simp only [hxy, if_false]
        refine List.Pairwise.cons ?_ (ih h.2)
        intro z hz
        rcases (mem_insLV z x ys).mp hz with hzx | hzys
        · subst hzx
          unfold descOrd
          simpa using hxy
        · exact h.1 z hzys

theorem insLV_filter (x : LV) (l : List LV) (h : l.Pairwise descOrd) (v : JSNum) :
    (insLV x l).filter (fun p => p.value = v) =
      l.filter (fun p => p.value = v) ++ (if x.value = v then [x] else []) := by
  induction l with
  | nil => by_cases hx : x.value = v <;> simp [insLV, hx]
  | cons y ys ih =>
      rw [List.pairwise_cons] at h
      rw [insLV_cons]
      by_cases hxy : JSNum.gt x.value y.value = true
      · simp only [hxy, if_true]
        by_cases hx : x.value = v
        · have hy : ¬ (y.value = v) := by
            intro hyv
            have : JSNum.gt x.value x.value = true := by
              rw [show x.value = y.value from hx.trans hyv.symm] at hxy ⊢
              exact hxy
            simp [jsGt_irrefl] at this
          have hys : ∀ z ∈ ys, ¬ (z.value = v) := by
            intro z hz hzv
            have hyz := h.1 z hz
            unfold descOrd at hyz
            have : JSNum.gt z.value y.value = true := by
              rw [show z.value = x.value from hzv.trans hx.symm]
              exact hxy
            simp [this] at hyz
          have hnil : (y :: ys).filter (fun p => p.value = v) = [] := by
            rw [List.filter_eq_nil_iff]
            intro z hz
            rcases List.mem_cons.mp hz with hzy | hzys
            · subst hzy; simpa using hy
            · simpa using hys z hzys
          simp [List.filter_cons, hx, hy, hnil, List.filter_eq_nil_iff.mp hnil]
        · simp only [if_neg hx, List.append_nil]
          have hy' : (decide (x.value = v)) = false := by simpa using hx
          simp [List.filter_cons, hy']
      · rw [if_neg hxy]
        rw [List.filter_cons, List.filter_cons, ih h.2]
        by_cases hy : y.value = v <;> simp [hy, List.append_assoc]

theorem sortAux_perm (l acc : List LV) :
    (l.foldl (fun a x => insLV x a) acc).Perm (acc ++ l) := by
  induction l generalizing acc with
  | nil => simp
  | cons x rest ih =>
      refine (ih (insLV x acc)).trans ?_
      refine (((insLV_perm x acc).append_right rest).trans ?_)
      exact List.perm_middle.symm

theorem sortLV_perm (l : List LV) : (sortLV l).Perm l := by
  simpa using sortAux_perm l []

theorem sortAux_pairwise (l acc : List LV) (h : acc.Pairwise descOrd) :
    (l.foldl (fun a x => insLV x a) acc).Pairwise descOrd := by
  induction l generalizing acc with
  | nil => simpa using h
  | cons x rest ih => exact ih (insLV x acc) (insLV_pairwise x acc h)

theorem sortLV_pairwise (l : List LV) : (sortLV l).Pairwise descOrd :=
  sortAux_pairwise l [] (by simp)

theorem sortAux_filter (l acc : List LV) (h : acc.Pairwise descOrd) (v : JSNum) :
    (l.foldl (fun a x => insLV x a) acc).filter (fun p => p.value = v) =
      acc.filter (fun p => p.value = v) ++ l.filter (fun p => p.value = v) := by
  induction l generalizing acc with
  | nil => simp
  | cons x rest ih =>
      have step := ih (insLV x acc) (insLV_pairwise x acc h)
      rw [List.foldl_cons, step, insLV_filter x acc h v, List.filter_cons,
        List.append_assoc]
      by_cases hx : x.value = v
      · simp [hx]
      · have hx' : (decide (x.value = v)) = false := by simpa using hx
        simp [hx, hx']

theorem sortLV_filter (l : List LV) (v : JSNum) :
    (sortLV l).filter (fun p => p.value = v) = l.filter (fun p => p.value = v) := by
  simpa using sortAux_filter l [] (by simp) v

/-! ## Grouping lemmas -/

theorem mapGetLV_cons (p : LV) (rest : List LV) (l : String) :
    mapGetLV (p :: rest) l = if p.label = l then some p.value else mapGetLV rest l := by
  by_cases h : p.label = l <;> simp [mapGetLV, List.find?_cons, h]

theorem mapGetLV_mapSetLV (m : List LV) (k : String) (v : JSNum) (l : String) :
    mapGetLV (mapSetLV m k v) l = if l = k then some v else mapGetLV m l := by
  induction m with
  | nil =>
      by_cases h : l = k
      · simp [mapSetLV, mapGetLV, List.find?_cons, h]
      · have h' : ¬ (k = l) := fun hk => h hk.symm
        simp [mapSetLV, mapGetLV, List.find?_cons, h, h']
  | cons p rest ih =>
      by_cases hp : p.label = k
      · rw [show mapSetLV (p :: rest) k v = ⟨k, v⟩ :: rest by simp [mapSetLV, hp]]
        rw [mapGetLV_cons, mapGetLV_cons]
        by_cases h : l = k
        · simp [h]
        · have h' : ¬ (k = l) := fun hk => h hk.symm
          have hpl : ¬ (p.label = l) := fun hl => h' (hp.symm.trans hl)
          rw [if_neg h, if_neg (show ¬ ((⟨k, v⟩ : LV).label = l) from h'), if_neg hpl]
      · rw [show mapSetLV (p :: rest) k v = p :: mapSetLV rest k v by simp [mapSetLV, hp]]
        rw [mapGetLV_cons, mapGetLV_cons]
        by_cases hpl : p.label = l
        · have h : ¬ (l = k) := fun hl => hp (hpl.trans hl)
          simp [hpl, h]
        · simp only [if_neg hpl]
          rw [ih]

theorem mapSetLV_labels (m : List LV) (k : String) (v : JSNum) :
    (mapSetLV m k v).map LV.label =
      if k ∈ m.map LV.label then m.map LV.label else m.map LV.label ++ [k] := by
  induction m with
  | nil => simp [mapSetLV]
  | cons p rest ih =>
      by_cases hp : p.label = k
      · rw [show mapSetLV (p :: rest) k v = ⟨k, v⟩ :: rest by simp [mapSetLV, hp]]
        simp [hp]
      · rw [show mapSetLV (p :: rest) k v = p :: mapSetLV rest k v by simp [mapSetLV, hp]]
        have hk : ¬ (k = p.label) := fun h => hp h.symm
        by_cases hmem : k ∈ rest.map LV.label
        · simp [ih, hmem, hk]
        · simp [ih, hmem, hk]

theorem mem_mapSetLV_value (m : List LV) (k : String) (v : JSNum) (p' : LV)
    (h : p' ∈ mapSetLV m k v) : p'.value = v ∨ p' ∈ m := by
  induction m with
  | nil =>
      simp [mapSetLV] at h
      subst h
      exact Or.inl rfl
  | cons p rest ih =>
      by_cases hp : p.label = k
      · rw [show mapSetLV (p :: rest) k v = ⟨k, v⟩ :: rest by simp [mapSetLV, hp]] at h
        rcases List.mem_cons.mp h with h1 | h2
        · subst h1; exact Or.inl rfl
        · exact Or.inr (List.mem_cons_of_mem p h2)
      · rw [show mapSetLV (p :: rest) k v = p :: mapSetLV rest k v by simp [mapSetLV, hp]] at h
        rcases List.mem_cons.mp h with h1 | h2
        · subst h1; exact Or.inr (List.mem_cons_self _ _)
        · rcases ih h2 with hv | hm
          · exact Or.inl hv
          · exact Or.inr (List.mem_cons_of_mem p hm)

theorem JSNum.add_finite (a b : JSNum) (ha : a.isFinite = true) (hb : b.isFinite = true) :
    (JSNum.add a b).isFinite = true := by
  rcases a <;> rcases b <;> simp_all [JSNum.isFinite, JSNum.add]

theorem JSNum.finite_toQ (a : JSNum) (ha : a.isFinite = true) : a = JSNum.finite a.toQ := by
  rcases a <;> simp_all [JSNum.isFinite, JSNum.toQ]

theorem orZero_of_finite (o : Option JSNum) (h : ∀ x ∈ o, x.isFinite = true) :
    orZero o = JSNum.finite ((o.getD (JSNum.finite 0)).toQ) := by
  rcases o with _ | v
  · simp [orZero, JSNum.toQ]
  · have hv := h v rfl
    rcases v with q | _ | _ | _ <;> simp_all [JSNum.isFinite]
    by_cases hq : q = 0
    · simp [orZero, JSNum.falsy, hq, JSNum.toQ]
    · simp [orZero, JSNum.falsy, hq, JSNum.toQ]

theorem mapGetLV_finite (m : List LV) (k : String)
    (hm : ∀ p ∈ m, p.value.isFinite = true) : ∀ x ∈ mapGetLV m k, x.isFinite = true := by
  intro x hx
  rcases hfind : (m.find? (fun p => p.label = k)) with _ | p
  · simp [mapGetLV, hfind] at hx
  · have hp := List.mem_of_find?_eq_some hfind
    simp [mapGetLV, hfind] at hx
    subst hx
    exact hm p hp

theorem aggStep_finite (dim : String) (acc : List LV) (r : NRec)
    (hacc : ∀ p ∈ acc, p.value.isFinite = true) (hr : r.metric.isFinite = true) :
    ∀ p ∈ aggStep dim acc r, p.value.isFinite = true := by
  intro p hp
  unfold aggStep at hp
  rcases mem_mapSetLV_value _ _ _ _ hp with hv | hm
  · rw [hv]
    refine JSNum.add_finite _ _ ?_ hr
    rw [orZero_of_finite _ (mapGetLV_finite acc _ hacc)]
    simp [JSNum.isFinite]
  · exact hacc p hm

theorem aggStep_valTotal (dim : String) (acc : List LV) (r : NRec) (l : String)
    (hacc : ∀ p ∈ acc, p.value.isFinite = true) (hr : r.metric.isFinite = true) :
    valTotal (aggStep dim acc r) l =
      if l = relabel (dimValue dim r) then
        valTotal acc (relabel (dimValue dim r)) + r.metric.toQ
      else valTotal acc l := by
  unfold aggStep valTotal
  rw [mapGetLV_mapSetLV]
  by_cases h : l = relabel (dimValue dim r)
  · rw [if_pos h, if_pos h]
    rw [orZero_of_finite _ (mapGetLV_finite acc _ hacc)]
    rw [JSNum.finite_toQ r.metric hr]
    simp [JSNum.add, JSNum.toQ]
  · rw [if_neg h, if_neg h]

theorem groupAux_total (dim : String) (rows : List NRec) :
    ∀ (acc : List LV), (∀ p ∈ acc, p.value.isFinite = true) →
    (∀ r ∈ rows, r.metric.isFinite = true) → ∀ l,
    valTotal (rows.foldl (aggStep dim) acc) l =
      valTotal acc l +
        ((rows.filter (fun r => relabel (dimValue dim r) = l)).map
          (fun r => r.metric.toQ)).sum := by
  induction rows with
  | nil => intro acc hacc hrows l; simp
  | cons r rest ih =>
      intro acc hacc hrows l
      have hr : r.metric.isFinite = true := hrows r (List.mem_cons_self _ _)
      have hrest : ∀ x ∈ rest, x.metric.isFinite = true :=
        fun x hx => hrows x (List.mem_cons_of_mem r hx)
      rw [List.foldl_cons]
      rw [ih (aggStep dim acc r) (aggStep_finite dim acc r hacc hr) hrest l]
      rw [aggStep_valTotal dim acc r l hacc hr]
      rw [List.filter_cons]
      by_cases h : relabel (dimValue dim r) = l
      · rw [if_pos h.symm,
          if_pos (show decide (relabel (dimValue dim r) = l) = true by simpa using h)]
        rw [List.map_cons, List.sum_cons, h]
        ring
      · have h' : ¬ (l = relabel (dimValue dim r)) := fun hl => h hl.symm
        rw [if_neg h',
          if_neg (show ¬ (decide (relabel (dimValue dim r) = l) = true) by simpa using h)]

theorem valTotal_nil (l : String) : valTotal [] l = 0 := by
  simp [valTotal, mapGetLV, JSNum.toQ]

theorem sum_mapSetLV (m : List LV) (k : String) (v : JSNum) :
    ((mapSetLV m k v).map (fun p => p.value.toQ)).sum =
      (m.map (fun p => p.value.toQ)).sum + v.toQ -
        ((mapGetLV m k).getD (JSNum.finite 0)).toQ := by
  induction m with
  | nil => simp [mapSetLV, mapGetLV, JSNum.toQ]
  | cons p rest ih =>
      by_cases hp : p.label = k
      · rw [show mapSetLV (p :: rest) k v = ⟨k, v⟩ :: rest by simp [mapSetLV, hp]]
        rw [mapGetLV_cons, if_pos hp]
        simp only [List.map_cons, List.sum_cons, Option.getD_some]
        ring
      · rw [show mapSetLV (p :: rest) k v = p :: mapSetLV rest k v by simp [mapSetLV, hp]]
        rw [mapGetLV_cons, if_neg hp]
        simp only [List.map_cons, List.sum_cons, ih]
        ring

theorem groupAux_sum (dim : String) (rows : List NRec) :
    ∀ (acc : List LV), (∀ p ∈ acc, p.value.isFinite = true) →
    (∀ r ∈ rows, r.metric.isFinite = true) →
    ((rows.foldl (aggStep dim) acc).map (fun p => p.value.toQ)).sum =
      (acc.map (fun p => p.value.toQ)).sum + (rows.map (fun r => r.metric.toQ)).sum := by
  induction rows with
  | nil => intro acc hacc hrows; simp
  | cons r rest ih =>
      intro acc hacc hrows
      have hr : r.metric.isFinite = true := hrows r (List.mem_cons_self _ _)
      have hrest : ∀ x ∈ rest, x.metric.isFinite = true :=
        fun x hx => hrows x (List.mem_cons_of_mem r hx)
      rw [List.foldl_cons]
      rw [ih (aggStep dim acc r) (aggStep_finite dim acc r hacc hr) hrest]
      have hstep : ((aggStep dim acc r).map (fun p => p.value.toQ)).sum =
          (acc.map (fun p => p.value.toQ)).sum + r.metric.toQ := by
        unfold aggStep
        rw [sum_mapSetLV]
        rw [orZero_of_finite _ (mapGetLV_finite acc _ hacc)]
        rw [JSNum.finite_toQ r.metric hr]
        simp only [JSNum.add, JSNum.toQ]
        ring
      rw [hstep, List.map_cons, List.sum_cons]
      ring

theorem firstOccurAux_congr (l : List String) :
    ∀ (s1 s2 : List String), (∀ x, x ∈ s1 ↔ x ∈ s2) →
    firstOccurAux s1 l = firstOccurAux s2 l := by
  induction l with
  | nil => intro s1 s2 h; rfl
  | cons x rest ih =>
      intro s1 s2 h
      unfold firstOccurAux
      have hc : s1.contains x = s2.contains x := by
        rcases hb : s2.contains x with _ | _
        · rw [← Bool.not_eq_true] at hb ⊢
          rw [List.elem_iff] at hb ⊢
          exact fun hx => hb ((h x).mp hx)
        · rw [List.elem_iff] at hb ⊢
          exact (h x).mpr hb
      rw [hc]
      by_cases hx : s2.contains x = true
      · rw [if_pos hx, if_pos hx]
        exact ih s1 s2 h
      · rw [if_neg hx, if_neg hx]
        rw [ih (x :: s1) (x :: s2) (by intro y; simp [h y])]

theorem groupAux_labels (dim : String) (rows : List NRec) :
    ∀ (acc : List LV),
    (rows.foldl (aggStep dim) acc).map LV.label =
      acc.map LV.label ++
        firstOccurAux (acc.map LV.label) (rows.map (fun r => relabel (dimValue dim r))) := by
  induction rows with
  | nil => intro acc; simp [firstOccurAux]
  | cons r rest ih =>
      intro acc
      rw [List.foldl_cons, List.map_cons]
      unfold firstOccurAux
      have hstep : (aggStep dim acc r).map LV.label =
          if relabel (dimValue dim r) ∈ acc.map LV.label then acc.map LV.label
          else acc.map LV.label ++ [relabel (dimValue dim r)] := by
        unfold aggStep
        exact mapSetLV_labels acc _ _
      by_cases hmem : relabel (dimValue dim r) ∈ acc.map LV.label
      · have hc : (acc.map LV.label).contains (relabel (dimValue dim r)) = true := by
          rw [List.elem_iff]; exact hmem
        rw [ih (aggStep dim acc r), hstep, if_pos hmem, hc, if_pos rfl]
      · have hc : (acc.map LV.label).contains (relabel (dimValue dim r)) = false := by
          rw [← Bool.not_eq_true, List.elem_iff]; exact hmem
        rw [ih (aggStep dim acc r), hstep, if_neg hmem, hc]
        simp only [Bool.false_eq_true, if_false]
        rw [List.append_assoc, List.singleton_append]
        congr 1
        congr 1
        apply firstOccurAux_congr
        intro y
        constructor
        · intro hy
          rcases List.mem_append.mp hy with hy | hy
          · exact List.mem_cons_of_mem _ hy
          · exact List.mem_cons.mpr (Or.inl (List.mem_singleton.mp hy))
        · intro hy
          rcases List.mem_cons.mp hy with hy | hy
          · exact List.mem_append.mpr (Or.inr (by simp [hy]))
          · exact List.mem_append.mpr (Or.inl hy)

theorem groupPairs_labels (rows : List NRec) (dim : String) :
    (groupPairs rows dim).map LV.label =
      firstOccur (rows.map (fun r => relabel (dimValue dim r))) := by
  unfold groupPairs firstOccur
  simpa using groupAux_labels dim rows []

/-! ## Claim C4 -/

/-- Claim C4 (amended): the Aggregator groups records by the grouping
dimension's value with the empty string relabelled "Unspecified", keeping
labels in first-encounter order; per group it accumulates the metrics with
a running total whose `|| 0` guard resets a NaN (or zero) total to 0
before each addition — so whenever every metric is finite the group total
is the exact sum of the group's metrics; and it returns the pairs sorted
by total descending with ties kept in first-encounter order (the stable
sort leaves each equal-total class exactly as the grouping produced
it). -/
theorem c4_claim (rows : List NRec) (dimension : String) :
    (aggregate rows dimension).Perm (groupPairs rows dimension) ∧
    (aggregate rows dimension).Pairwise descOrd ∧
    (∀ v : JSNum, (aggregate rows dimension).filter (fun p => p.value = v) =
      (groupPairs rows dimension).filter (fun p => p.value = v)) ∧
    (groupPairs rows dimension).map LV.label =
      firstOccur (rows.map (fun r => relabel (dimValue dimension r))) ∧
    ((∀ r ∈ rows, r.metric.isFinite = true) → ∀ l : String,
      valTotal (groupPairs rows dimension) l =
        ((rows.filter (fun r => relabel (dimValue dimension r) = l)).map
          (fun r => r.metric.toQ)).sum) := by
  refine ⟨sortLV_perm _, sortLV_pairwise _, fun v => sortLV_filter _ v,
    groupPairs_labels rows dimension, ?_⟩
  intro hf l
  unfold groupPairs
  rw [groupAux_total dimension rows [] (by simp) hf l, valTotal_nil, zero_add]

/-- Claim C4 counterexample: with metrics `+∞`, `-∞`, `5` under the single
label "A", the sum of the group's metrics is NaN in every summation
order, yet the aggregator reports a (non-NaN) finite total, because
`(totals.get(label) || 0)` replaces the NaN running total by 0. -/
theorem c4_counterexample :
    mapGetLV (groupPairs c4ceRecs "product") "A" ≠
      some (jsSumList (c4ceRecs.map NRec.metric)) ∧
    jsSumList (c4ceRecs.map NRec.metric) = JSNum.nan ∧
    (aggregate c4ceRecs "product").map LV.label = ["A"] ∧
    (aggregate c4ceRecs "product").map (fun p => p.value.isNaN) = [false] := by
  refine ⟨by decide, by decide, by decide, by decide⟩

/-- Claim C4 witness at the specification's own tie example (A: 3 + 2,
B: 5). -/
theorem c4_witness :
    (aggregate c4wRecs "product").Perm (groupPairs c4wRecs "product") ∧
    (groupPairs c4wRecs "product").map LV.label = ["A", "B"] ∧
    valTotal (groupPairs c4wRecs "product") "A" =
      ((c4wRecs.filter (fun r => relabel (dimValue "product" r) = "A")).map
        (fun r => r.metric.toQ)).sum := by
  refine ⟨(c4_claim c4wRecs "product").1, ?_,
    (c4_claim c4wRecs "product").2.2.2.2 (by decide) "A"⟩
  rw [(c4_claim c4wRecs "product").2.2.2.1]
  decide

/-! ## Claim C10 -/

/-- Claim C10 (amended): when every record metric is finite, the sum of
the group totals returned by the Aggregator equals the sum of the metric
fields of the input records — grouping neither drops nor double-counts
any record's metric.  (With non-finite metrics the `|| 0` reset of a NaN
running total can drop values; see the counterexample.) -/
theorem c10_claim (rows : List NRec) (dimension : String)
    (hf : ∀ r ∈ rows, r.metric.isFinite = true) :
    ((aggregate rows dimension).map (fun p => p.value.toQ)).sum =
      (rows.map (fun r => r.metric.toQ)).sum := by
  have hperm : ((aggregate rows dimension).map (fun p => p.value.toQ)).Perm
      ((groupPairs rows dimension).map (fun p => p.value.toQ)) :=
    (sortLV_perm _).map _
  rw [hperm.sum_eq]
  unfold groupPairs
  simpa using groupAux_sum dimension rows [] (by simp) hf

/-- Claim C10 counterexample: with metrics `+∞`, `-∞`, `7` under one
label, the JS sum of the returned totals is finite while the JS sum of
the input metrics is NaN, so the two sums differ. -/
theorem c10_counterexample :
    jsSumList ((aggregate c10ceRecs "product").map (fun p => p.value)) ≠
      jsSumList (c10ceRecs.map NRec.metric) ∧
    jsSumList (c10ceRecs.map NRec.metric) = JSNum.nan ∧
    (∀ r ∈ c10ceRecs, relabel (dimValue "product" r) = "B") := by
  refine ⟨by decide, by decide, by decide⟩

/-- Claim C10 witness: three finite-metric records grouped by branch. -/
theorem c10_witness :
    ((aggregate c10wRecs "branch").map (fun p => p.value.toQ)).sum =
      (c10wRecs.map (fun r => r.metric.toQ)).sum :=
  c10_claim c10wRecs "branch" (by decide)

/-! ## Claim C2 -/

/-- The `numeric` helper never returns NaN: a NaN parse is coerced to 0. -/
theorem numericJS_not_nan (s : String) : (numericJS s).isNaN = false := by
  unfold numericJS
  by_cases h : (jsStringToNumber (jsTrim (stripNum s))).isNaN = true
  · rw [if_pos h]
    rfl
  · rw [if_neg h]
    simpa using h

/-- Claim C2 (amended): every record the Row Expander produces — on the
wide and the long path alike — has a metric that is never NaN, and any
cell whose comma/percent-stripped, trimmed text parses to NaN coerces to
metric 0.  The metric is, however, not always finite: a cell that parses
to ±Infinity (such as the text "Infinity") passes through; see the
counterexample. -/
theorem c2_claim (rows : List RowMap) (meta : RoleMap) :
    (∀ rec ∈ expandRows rows meta, rec.metric.isNaN = false) ∧
    (∀ s : String, (jsStringToNumber (jsTrim (stripNum s))).isNaN = true →
      numericJS s = JSNum.finite 0) := by
  constructor
  · intro rec hrec
    unfold expandRows at hrec
    by_cases h : meta.productColumns.length > 0
    · rw [if_pos h] at hrec
      rcases List.mem_flatMap.mp hrec with ⟨row, hrow, hrec2⟩
      rcases List.mem_map.mp hrec2 with ⟨col, hcol, hrec3⟩
      rw [← hrec3]
      exact numericJS_not_nan _
    · rw [if_neg h] at hrec
      rcases List.mem_map.mp hrec with ⟨row, hrow, hrec2⟩
      rw [← hrec2]
      exact numericJS_not_nan _
  · intro s h
    unfold numericJS
    rw [if_pos h]

/-- Claim C2 counterexample: the cell text "Infinity" parses to the
infinite value, so the produced metric is not finite — the claim's
"finite" part fails (its "never NaN" part holds). -/
theorem c2_counterexample :
    expandRows c2ceRows c2ceMeta = [⟨"P", "", "", "", JSNum.inf⟩] ∧
    JSNum.inf.isFinite = false ∧ JSNum.inf.isNaN = false := by
  refine ⟨by decide, by decide, by decide⟩

/-- Claim C2 witness: the record produced from the "Infinity" cell is not
NaN, and an unparsable cell ("n/a") coerces to 0. -/
theorem c2_witness :
    (⟨"P", "", "", "", JSNum.inf⟩ : NRec).metric.isNaN = false ∧
    numericJS "n/a" = JSNum.finite 0 :=
  ⟨(c2_claim c2ceRows c2ceMeta).1 ⟨"P", "", "", "", JSNum.inf⟩ (by decide),
   (c2_claim c2ceRows c2ceMeta).2 "n/a" (by decide)⟩

/-! ## Claim C5 -/

/-- Claim C5: filtering accepts a record iff each constrained dimension
among product/branch/area either carries no constraint (`"__all"`) or
matches the record's value by exact case-sensitive string equality; and a
dimension whose role key is absent from the schema (branch or area unset)
never causes a rejection, whatever its filter value. -/
theorem c5_claim (meta : RoleMap) (filters : Filters) (row : NRec) :
    (rowPasses meta filters row = true ↔ specAccepts meta filters row) ∧
    (meta.branchKey = none →
      ∀ b, rowPasses meta (setBranchFilter filters b) row = rowPasses meta filters row) ∧
    (meta.areaKey = none →
      ∀ a, rowPasses meta (setAreaFilter filters a) row = rowPasses meta filters row) := by
  refine ⟨?_, ?_, ?_⟩
  · simp only [rowPasses, specAccepts, Bool.and_eq_true, decide_eq_true_eq,
      Bool.or_eq_true]
    constructor
    · intro ⟨h1, h2, h3⟩
      refine ⟨h1, fun hb => ?_, fun ha => ?_⟩
      · rcases h2 with h | h
        · exact absurd h hb
        · exact h
      · rcases h3 with h | h
        · exact absurd h ha
        · exact h
    · intro ⟨h1, h2, h3⟩
      refine ⟨h1, ?_, ?_⟩
      · by_cases hb : meta.branchKey = none
        · exact Or.inl hb
        · exact Or.inr (h2 hb)
      · by_cases ha : meta.areaKey = none
        · exact Or.inl ha
        · exact Or.inr (h3 ha)
  · intro h b
    simp [rowPasses, setBranchFilter, h]
  · intro h a
    simp [rowPasses, setAreaFilter, h]

/-- Claim C5 witness: a record matching the branch filter with the area
role absent passes, and changing the (unused) area filter value does not
change the outcome. -/
theorem c5_witness :
    rowPasses c5wMeta c5wFilters c5wRec = true ∧
    specAccepts c5wMeta c5wFilters c5wRec ∧
    rowPasses c5wMeta (setAreaFilter c5wFilters "X") c5wRec =
      rowPasses c5wMeta c5wFilters c5wRec :=
  ⟨by decide, (c5_claim c5wMeta c5wFilters c5wRec).1.mp (by decide),
   (c5_claim c5wMeta c5wFilters c5wRec).2.2 rfl "X"⟩

/-! ## Claim C9 -/

/-- Claim C9: ingestion reports the insufficient-schema condition exactly
when the table has data rows but the inferred role map has no metric key
and no product columns; the header-only-text file "Notes,Comments" with
one non-numeric row triggers it (rather than producing records or
failing any other way). -/
theorem c9_claim (text : String) :
    (ingest text = IngestResult.insufficientSchema ↔
      ((parseCsv text).rows ≠ [] ∧
       (detectColumns (parseCsv text).headers (parseCsv text).rows
         (parseCsv text).rawHeaders).metricKey = none ∧
       (detectColumns (parseCsv text).headers (parseCsv text).rows
         (parseCsv text).rawHeaders).productColumns = [])) ∧
    ingest c9exText = IngestResult.insufficientSchema := by
  constructor
  · simp only [ingest]
    split_ifs with h1 h2
    · simp [h1]
    · simp [h1, h2]
    · simp only [not_and_or] at h2
      constructor
      · intro h
        exact absurd h (by simp)
      · intro ⟨ha, hb, hc⟩
        rcases h2 with h | h
        · exact absurd hb h
        · exact absurd hc h
  · decide

/-! ## Claim C6 -/

/-- Claim C6: the fixed-position override — any vocabulary name among the
headers at positions 3–7 makes the product-column set exactly that
fixed-position matching subset, replacing the numerically computed set;
with no fixed-position match, an empty computed set and at least 3
headers, the set becomes the non-blank headers at positions 3–7. -/
theorem c6_claim (headers : List String) (rows : List RowMap) (rawHeaders : List String) :
    (fixedMatchOf headers ≠ [] →
      (detectColumns headers rows rawHeaders).productColumns = fixedMatchOf headers) ∧
    (fixedMatchOf headers = [] → computedProductColumns headers rows = [] →
      headers.length ≥ 3 →
      (detectColumns headers rows rawHeaders).productColumns = fallbackSlice headers) := by
  constructor
  · intro h
    show productColumnsOf headers rows = fixedMatchOf headers
    unfold productColumnsOf
    rw [if_pos h]
  · intro h1 h2 h3
    show productColumnsOf headers rows = fallbackSlice headers
    unfold productColumnsOf
    rw [if_neg (by simp [h1]), if_pos ⟨h2, h3⟩]
    by_cases hs : fallbackSlice headers ≠ []
    · rw [if_pos hs]
    · rw [if_neg hs, h2]
      exact (not_ne_iff.mp hs).symm

/-- Claim C6 witness: vocabulary names at positions 3 and 5 override a
non-empty computed set; and headers "A,B,C,D" with no numeric column
fall back to positions 3–7. -/
theorem c6_witness :
    (detectColumns c6wHeaders c6wRows c6wHeaders).productColumns =
      ["Backribs", "Spareribs"] ∧
    (detectColumns c6wHeaders2 [] c6wHeaders2).productColumns = ["C", "D"] := by
  constructor
  · rw [(c6_claim c6wHeaders c6wRows c6wHeaders).1 (by decide)]
    decide
  · rw [(c6_claim c6wHeaders2 [] c6wHeaders2).2 (by decide) (by decide) (by decide)]
    decide

/-! ## Claim C1 -/

/-- The synthetic-label choice: first surviving raw header, else the
literal "All Products"; the source's metric-key reassignment is dead
because the label is never empty at that point. -/
theorem syntheticLabelOf_eq (raw : List String) (mk : Option String) :
    syntheticLabelOf raw mk = ((cleanedRawOf raw).find? isProductish).getD "All Products" := by
  unfold syntheticLabelOf
  rcases hf : (cleanedRawOf raw).find? isProductish with _ | s
  · simp
  · have hs : s ∈ cleanedRawOf raw := List.mem_of_find?_eq_some hf
    have hne : s ≠ "" := by
      unfold cleanedRawOf at hs
      simpa using (List.mem_filter.mp hs).2
    simp [hne]

/-- Claim C1 (amended): the synthetic product flag is set exactly when
neither a product key nor product columns were found, and the label is
then the first trimmed, non-empty raw header whose lowercased text
contains no banned substring — falling back, when no header survives the
denylist, directly to the literal "All Products".  (The claimed
intermediate fall-back to the resolved metric key is dead code: the label
is already non-empty when that reassignment is reached; see the
counterexample.) -/
theorem c1_claim (headers : List String) (rows : List RowMap) (rawHeaders : List String) :
    ((detectColumns headers rows rawHeaders).syntheticProduct = true ↔
      ((detectColumns headers rows rawHeaders).productKey = none ∧
       (detectColumns headers rows rawHeaders).productColumns = [])) ∧
    ((detectColumns headers rows rawHeaders).productKey = none →
     (detectColumns headers rows rawHeaders).productColumns = [] →
     (detectColumns headers rows rawHeaders).syntheticProductLabel =
       ((cleanedRawOf rawHeaders).find? isProductish).getD "All Products") := by
  constructor
  · show decide (findHeaderIn headers productCandidates = none ∧
        productColumnsOf headers rows = []) = true ↔ _
    rw [decide_eq_true_eq]
    exact Iff.rfl
  · intro h1 h2
    show (if (findHeaderIn headers productCandidates = none ∧
        productColumnsOf headers rows = []) then
          syntheticLabelOf rawHeaders (finalMetricKeyOf headers rows)
        else "All Products") = _
    rw [if_pos ⟨h1, h2⟩, syntheticLabelOf_eq]

/-- Claim C1 counterexample: with the single header "Total" (a metric
keyword, and a denylist word) over a non-numeric row, a metric key
resolves and no raw header survives the denylist — yet the synthetic
label is the literal "All Products", not the metric key "Total" the
claim requires. -/
theorem c1_counterexample :
    (detectColumns c1ceHeaders c1ceRows c1ceHeaders).metricKey = some "Total" ∧
    (detectColumns c1ceHeaders c1ceRows c1ceHeaders).productKey = none ∧
    (detectColumns c1ceHeaders c1ceRows c1ceHeaders).productColumns = [] ∧
    (cleanedRawOf c1ceHeaders).find? isProductish = none ∧
    (detectColumns c1ceHeaders c1ceRows c1ceHeaders).syntheticProductLabel =
      "All Products" ∧
    "All Products" ≠ "Total" := by
  refine ⟨by decide, by decide, by decide, by decide, by decide, by decide⟩

/-- Claim C1 witness: the denylisted-header case falls back to
"All Products", and a surviving header ("Notes") becomes the label. -/
theorem c1_witness :
    (detectColumns c1ceHeaders c1ceRows c1ceHeaders).syntheticProductLabel =
      "All Products" ∧
    (detectColumns ["Notes", "Comments"] [[("Notes", "abc"), ("Comments", "d")]]
      ["Notes", "Comments"]).syntheticProductLabel = "Notes" := by
  constructor
  · rw [(c1_claim c1ceHeaders c1ceRows c1ceHeaders).2 (by decide) (by decide)]
    decide
  · rw [(c1_claim ["Notes", "Comments"] [[("Notes", "abc"), ("Comments", "d")]]
      ["Notes", "Comments"]).2 (by decide) (by decide)]
    decide

/-! ## Claim C3 -/

theorem flatMap_length {α β : Type} (f : α → List β) (m : Nat)
    (hf : ∀ x, (f x).length = m) (l : List α) : (l.flatMap f).length = l.length * m := by
  induction l with
  | nil => simp
  | cons x rest ih =>
      rw [List.flatMap_cons, List.length_append, hf x, ih, List.length_cons]
      ring

theorem flatMap_getElem {α β : Type} (f : α → List β) (m : Nat)
    (hf : ∀ x, (f x).length = m) (l : List α) :
    ∀ (i j : Nat), j < m →
      (l.flatMap f)[i * m + j]? = l[i]?.bind (fun x => (f x)[j]?) := by
  induction l with
  | nil => intro i j hj; simp
  | cons x rest ih =>
      intro i j hj
      rw [List.flatMap_cons]
      match i with
      | 0 =>
          rw [List.getElem?_append_left (by rw [hf x]; omega)]
          simp
      | i + 1 =>
          rw [List.getElem?_append_right (by rw [hf x]; nlinarith)]
          have harith : (i + 1) * m + j - (f x).length = i * m + j := by
            rw [hf x]; ring_nf; omega
          rw [harith, ih i j hj]
          simp

/-- Claim C3: on the wide path the Row Expander's output is exactly, per
source row and per product column in declared order, one record with that
column's name as product, the numeric-parsed cell as metric, and the
trimmed row values at the resolved keys (empty when unset); the record at
flat position `i·|columns| + j` comes from row `i` and column `j`, and
the total count is `rows × |productColumns|`. -/
theorem c3_claim (rows : List RowMap) (meta : RoleMap)
    (h : meta.productColumns ≠ []) :
    expandRows rows meta = specWideExpand rows meta ∧
    (expandRows rows meta).length = rows.length * meta.productColumns.length ∧
    (∀ i j, j < meta.productColumns.length →
      (expandRows rows meta)[i * meta.productColumns.length + j]? =
        rows[i]?.bind (fun row => meta.productColumns[j]?.map (fun col =>
          (⟨col, cleanText row meta.itemKey, cleanText row meta.branchKey,
            cleanText row meta.areaKey,
            numericJS (cellStr (row.lookup col))⟩ : NRec)))) := by
  have hlen : meta.productColumns.length > 0 := List.length_pos.mpr h
  have hexp : expandRows rows meta = specWideExpand rows meta := by
    unfold expandRows specWideExpand
    rw [if_pos hlen]
  refine ⟨hexp, ?_, ?_⟩
  · rw [hexp]
    unfold specWideExpand
    exact flatMap_length _ _ (fun row => by simp) rows
  · intro i j hj
    rw [hexp]
    unfold specWideExpand
    rw [flatMap_getElem _ meta.productColumns.length (fun row => by simp) rows i j hj]
    have hmap : ∀ row : RowMap,
        (meta.productColumns.map (fun col =>
          (⟨col, cleanText row meta.itemKey, cleanText row meta.branchKey,
            cleanText row meta.areaKey,
            numericJS (cellStr (row.lookup col))⟩ : NRec)))[j]? =
        meta.productColumns[j]?.map (fun col =>
          (⟨col, cleanText row meta.itemKey, cleanText row meta.branchKey,
            cleanText row meta.areaKey,
            numericJS (cellStr (row.lookup col))⟩ : NRec)) := by
      intro row
      exact List.getElem?_map ..
    simp only [hmap]

/-- Evaluation principle for a finite `numeric` result: it suffices to
evaluate the carried rational and the finiteness flag. -/
theorem numericJS_eval (s : String) (q : ℚ) (hq : (numericJS s).toQ = q)
    (hf : (numericJS s).isFinite = true) : numericJS s = JSNum.finite q := by
  cases h : numericJS s
  case finite q' =>
      rw [h] at hq
      simp only [JSNum.toQ] at hq
      rw [hq]
  case inf => rw [h] at hf; simp [JSNum.isFinite] at hf
  case negInf => rw [h] at hf; simp [JSNum.isFinite] at hf
  case nan => rw [h] at hf; simp [JSNum.isFinite] at hf

/-- Evaluation fact: `numeric("10") = 10`. -/
theorem numericJS_ten : numericJS "10" = JSNum.finite 10 := by
  apply numericJS_eval
  case hq =>
    show ((10 : ℕ) : ℚ) + ((0 : ℕ) : ℚ) / (10 : ℚ) ^ (0 : ℕ) = (10 : ℚ)
    simp
  case hf => decide

/-- Evaluation fact: `numeric("5") = 5`. -/
theorem numericJS_five : numericJS "5" = JSNum.finite 5 := by
  apply numericJS_eval
  case hq =>
    show ((5 : ℕ) : ℚ) + ((0 : ℕ) : ℚ) / (10 : ℚ) ^ (0 : ℕ) = (5 : ℚ)
    simp
  case hf => decide

/-- The specification's wide-expansion example, evaluated. -/
theorem c3_spec_example :
    specWideExpand c3exRows c3exMeta =
      [⟨"Backribs", "", "East", "", JSNum.finite 10⟩,
       ⟨"Spareribs", "", "East", "", JSNum.finite 5⟩] := by
  have h1 : specWideExpand c3exRows c3exMeta =
      [⟨"Backribs", "", "East", "", numericJS "10"⟩,
       ⟨"Spareribs", "", "East", "", numericJS "5"⟩] := rfl
  rw [h1, numericJS_ten, numericJS_five]

/-- Claim C3 witness at the specification's example: a row with product
columns Backribs=10, Spareribs=5 and branch East expands to exactly the
two records of the specification, in declared column order. -/
theorem c3_witness :
    expandRows c3exRows c3exMeta =
      [⟨"Backribs", "", "East", "", JSNum.finite 10⟩,
       ⟨"Spareribs", "", "East", "", JSNum.finite 5⟩] ∧
    (expandRows c3exRows c3exMeta).length = 1 * 2 := by
  constructor
  · rw [(c3_claim c3exRows c3exMeta (by decide)).1, c3_spec_example]
  · rw [(c3_claim c3exRows c3exMeta (by decide)).2.1]
    decide

/-! ## Claim C7 -/

theorem findHeaderAux_first (l : List (List String)) :
    ∀ (i hIdx maxCols k : Nat) (ck : List String),
    (∀ j cj, j < k → l[j]? = some cj → isHeaderRow cj = false) →
    l[k]? = some ck → isHeaderRow ck = true →
    (findHeaderAux l i hIdx maxCols).1 = i + k := by
  induction l with
  | nil => intro i hIdx maxCols k ck hpre hk hh; simp at hk
  | cons c rest ih =>
      intro i hIdx maxCols k ck hpre hk hh
      match k with
      | 0 =>
          have hck : c = ck := by simpa using hk
          simp only [findHeaderAux, hck, hh, if_true]
          omega
      | k + 1 =>
          have hc : isHeaderRow c = false := hpre 0 c (Nat.succ_pos k) (by simp)
          have hpre' : ∀ j cj, j < k → rest[j]? = some cj → isHeaderRow cj = false := by
            intro j cj hj hg
            exact hpre (j + 1) cj (by omega) (by simpa using hg)
          have hk' : rest[k]? = some ck := by simpa using hk
          simp only [findHeaderAux, hc, Bool.false_eq_true, if_false]
          by_cases hlen : c.length > maxCols
          · rw [if_pos hlen]
            have := ih (i + 1) i c.length k ck hpre' hk' hh
            omega
          · rw [if_neg hlen]
            have := ih (i + 1) hIdx maxCols k ck hpre' hk' hh
            omega

theorem findHeaderAux_widest (l : List (List String)) :
    ∀ (i hIdx maxCols : Nat),
    (∀ c ∈ l, isHeaderRow c = false) →
    ((findHeaderAux l i hIdx maxCols) = (hIdx, maxCols) ∧ ∀ c ∈ l, c.length ≤ maxCols) ∨
    (∃ k ck, l[k]? = some ck ∧
      (findHeaderAux l i hIdx maxCols) = (i + k, ck.length) ∧
      maxCols < ck.length ∧
      (∀ (j : Nat) (cj : List String), j < k → l[j]? = some cj → cj.length < ck.length) ∧
      (∀ (j : Nat) (cj : List String), l[j]? = some cj → cj.length ≤ ck.length)) := by
  induction l with
  | nil =>
      intro i hIdx maxCols hno
      left
      exact ⟨rfl, by simp⟩
  | cons c rest ih =>
      intro i hIdx maxCols hno
      have hc : isHeaderRow c = false := hno c (List.mem_cons_self _ _)
      have hno2 : ∀ x ∈ rest, isHeaderRow x = false :=
        fun x hx => hno x (List.mem_cons_of_mem c hx)
      simp only [findHeaderAux, hc, Bool.false_eq_true, if_false]
      by_cases hlen : c.length > maxCols
      · rw [if_pos hlen]
        rcases ih (i + 1) i c.length hno2 with
          ⟨heq, hall⟩ | ⟨k2, ck2, hget, heq, hlt, hpre, hall⟩
        · right
          refine ⟨0, c, by simp, ?_, hlen, ?_, ?_⟩
          · rw [heq]; simp
          · intro j cj hj hg; omega
          · intro j cj hg
            cases j with
            | zero =>
                have hcc : c = cj := by simpa using hg
                have hL : c.length = cj.length := by rw [hcc]
                omega
            | succ j =>
                have hg2 : rest[j]? = some cj := by simpa using hg
                exact hall cj (List.getElem?_mem hg2)
        · right
          refine ⟨k2 + 1, ck2, by simpa using hget, ?_, by omega, ?_, ?_⟩
          · rw [heq]
            congr 1
            omega
          · intro j cj hj hg
            cases j with
            | zero =>
                have hcc : c = cj := by simpa using hg
                have hL : c.length = cj.length := by rw [hcc]
                omega
            | succ j =>
                exact hpre j cj (by omega) (by simpa using hg)
          · intro j cj hg
            cases j with
            | zero =>
                have hcc : c = cj := by simpa using hg
                have hL : c.length = cj.length := by rw [hcc]
                omega
            | succ j => exact hall j cj (by simpa using hg)
      · rw [if_neg hlen]
        rcases ih (i + 1) hIdx maxCols hno2 with
          ⟨heq, hall⟩ | ⟨k2, ck2, hget, heq, hlt, hpre, hall⟩
        · left
          refine ⟨heq, ?_⟩
          intro x hx
          rcases List.mem_cons.mp hx with hx | hx
          · subst hx; omega
          · exact hall x hx
        · right
          refine ⟨k2 + 1, ck2, by simpa using hget, ?_, hlt, ?_, ?_⟩
          · rw [heq]
            congr 1
            omega
          · intro j cj hj hg
            cases j with
            | zero =>
                have hcc : c = cj := by simpa using hg
                have hL : c.length = cj.length := by rw [hcc]
                omega
            | succ j =>
                exact hpre j cj (by omega) (by simpa using hg)
          · intro j cj hg
            cases j with
            | zero =>
                have hcc : c = cj := by simpa using hg
                have hL : c.length = cj.length := by rw [hcc]
                omega
            | succ j => exact hall j cj (by simpa using hg)

/-- Claim C7: header-row detection returns the first line whose count of
alphabetic cells reaches `max(2, ceil(0.3 × cells))`; when no line
qualifies, it returns the first widest line (maximal cell count, earliest
such index); and on the lines "metadata,,", "Product,Branch,Value",
"Widgets,East,10" the chosen header index is 1, not 0. -/
theorem c7_claim :
    (∀ (cellRows : List (List String)) (k : Nat) (ck : List String),
      (∀ (j : Nat) (cj : List String), j < k → cellRows[j]? = some cj →
        isHeaderRow cj = false) →
      cellRows[k]? = some ck → isHeaderRow ck = true →
      (findHeader cellRows).1 = k) ∧
    (∀ (cellRows : List (List String)), cellRows ≠ [] →
      (∀ c ∈ cellRows, isHeaderRow c = false) →
      (findHeader cellRows).1 < cellRows.length ∧
      (∀ (j : Nat) (cj : List String), cellRows[j]? = some cj →
        cj.length ≤ ((cellRows[(findHeader cellRows).1]?).getD []).length) ∧
      (∀ (j : Nat) (cj : List String), j < (findHeader cellRows).1 →
        cellRows[j]? = some cj →
        cj.length < ((cellRows[(findHeader cellRows).1]?).getD []).length)) ∧
    (findHeader c7exCells).1 = 1 ∧
    (parseCsv c7exText).headers = ["Product", "Branch", "Value"] := by
  refine ⟨?_, ?_, by decide, by decide⟩
  · intro cellRows k ck hpre hk hh
    simpa using findHeaderAux_first cellRows 0 0 0 k ck hpre hk hh
  · intro cellRows hne hno
    rcases findHeaderAux_widest cellRows 0 0 0 hno with
      ⟨heq, hall⟩ | ⟨k, ck, hget, heq, hlt, hpre, hall⟩
    · have hr : (findHeader cellRows).1 = 0 := by unfold findHeader; rw [heq]
      rcases cellRows with _ | ⟨c, rest⟩
      · exact absurd rfl hne
      · have hc0 : c.length ≤ 0 := hall c (List.mem_cons_self _ _)
        refine ⟨by rw [hr]; simp, ?_, ?_⟩
        · intro j cj hg
          have hle : cj.length ≤ 0 := by
            cases j with
            | zero =>
                have hcc : c = cj := by simpa using hg
                have hL : c.length = cj.length := by rw [hcc]
                omega
            | succ j =>
                have hg2 : rest[j]? = some cj := by simpa using hg
                have := hall cj (List.mem_cons_of_mem c (List.getElem?_mem hg2))
                omega
          rw [hr]
          omega
        · intro j cj hj hg
          rw [hr] at hj
          omega
    · have hr : (findHeader cellRows).1 = k := by unfold findHeader; rw [heq]; simp
      have hk : k < cellRows.length := by
        rcases List.getElem?_eq_some_iff.mp hget with ⟨hk, _⟩
        exact hk
      have hgetD : ((cellRows[(findHeader cellRows).1]?).getD []) = ck := by
        rw [hr, hget]
        rfl
      refine ⟨by rw [hr]; exact hk, ?_, ?_⟩
      · intro j cj hg
        rw [hgetD]
        exact hall j cj hg
      · intro j cj hj hg
        rw [hgetD]
        rw [hr] at hj
        exact hpre j cj hj hg

/-- Claim C7 witness at the specification's example. -/
theorem c7_witness :
    isHeaderRow ["Product", "Branch", "Value"] = true ∧
    isHeaderRow ["metadata", "", ""] = false ∧
    (findHeader c7exCells).1 = 1 := by
  refine ⟨by decide, by decide, ?_⟩
  refine c7_claim.1 c7exCells 1 ["Product", "Branch", "Value"] ?_ (by decide) (by decide)
  intro j cj hj hg
  interval_cases j
  have hx : c7exCells[0]? = some ["metadata", "", ""] := by decide
  have hcc := Option.some.inj (hx.symm.trans hg)
  rw [← hcc]
  decide

/-! ## Claim C8 -/

theorem stringExt (a b : String) (h : a.data = b.data) : a = b := by
  cases a
  cases b
  exact congrArg String.mk h

theorem decVal_append (l : List Char) (c : Char) :
    decVal (l ++ [c]) = decVal l * 10 + (c.toNat - 48) := by
  simp [decVal, List.foldl_append]

theorem decDigit_toNat (d : Nat) (h : d < 10) : (decDigit d).toNat = 48 + d := by
  interval_cases d <;> decide

theorem decChars_val : ∀ (fuel n : Nat), n < 10 ^ fuel → decVal (decChars fuel n) = n := by
  intro fuel
  induction fuel with
  | zero =>
      intro n hn
      interval_cases n
      decide
  | succ f ih =>
      intro n hn
      by_cases h : n < 10
      · simp only [decChars, h, if_true]
        simp [decVal, decDigit_toNat n h]
      · simp only [decChars, h, if_false]
        rw [decVal_append, ih (n / 10) (by omega), decDigit_toNat (n % 10) (by omega)]
        omega

theorem decVal_natToDec (n : Nat) : decVal (natToDec n).data = n := by
  have hpow : n < 10 ^ (n + 1) := by
    calc n < 10 ^ n := Nat.lt_pow_self (by norm_num) n
      _ ≤ 10 ^ (n + 1) := Nat.pow_le_pow_right (by norm_num) (by omega)
  exact decChars_val (n + 1) n hpow

theorem natToDec_inj (a b : Nat) (h : natToDec a = natToDec b) : a = b := by
  have := congrArg (fun s => decVal s.data) h
  simpa [decVal_natToDec] using this

theorem decChars_digits : ∀ (fuel n : Nat) (c : Char), c ∈ decChars fuel n →
    ∃ d, d < 10 ∧ c = decDigit d := by
  intro fuel
  induction fuel with
  | zero => intro n c hc; simp [decChars] at hc
  | succ f ih =>
      intro n c hc
      by_cases h : n < 10
      · simp only [decChars, h, if_true, List.mem_singleton] at hc
        exact ⟨n, h, hc⟩
      · simp only [decChars, h, if_false, List.mem_append, List.mem_singleton] at hc
        rcases hc with hc | hc
        · exact ih (n / 10) c hc
        · exact ⟨n % 10, by omega, hc⟩

theorem lowerC_decDigit (d : Nat) (h : d < 10) : lowerC (decDigit d) = decDigit d := by
  interval_cases d <;> decide

theorem natToDec_map_lowerC (n : Nat) :
    (natToDec n).data.map lowerC = (natToDec n).data := by
  have h : ∀ c ∈ (natToDec n).data, lowerC c = c := by
    intro c hc
    rcases decChars_digits (n + 1) n c hc with ⟨d, hd, hcd⟩
    rw [hcd]
    exact lowerC_decDigit d hd
  exact (List.map_congr_left h).trans (List.map_id _)

theorem natToDec_ne_nil (n : Nat) : (natToDec n).data ≠ [] := by
  show decChars (n + 1) n ≠ []
  by_cases h : n < 10
  · simp [decChars, h]
  · simp [decChars, h]

theorem lowerS_candName (base : String) (k : Nat) (hk : k ≠ 0) :
    (lowerS (candName base k)).data =
      ((lowerS base).data ++ ['_']) ++ (natToDec k).data := by
  unfold candName
  rw [if_neg hk]
  show ((base.data ++ ['_']) ++ (natToDec k).data).map lowerC = _
  rw [List.map_append, List.map_append, natToDec_map_lowerC]
  rfl

theorem candName_zero_data (base : String) :
    (lowerS (candName base 0)).data = (lowerS base).data := by
  unfold candName
  rw [if_pos rfl]

theorem candName_lower_inj (base : String) (i j : Nat)
    (h : lowerS (candName base i) = lowerS (candName base j)) : i = j := by
  by_cases hi : i = 0 <;> by_cases hj : j = 0
  · rw [hi, hj]
  · exfalso
    subst hi
    have hd : (lowerS (candName base 0)).data.length =
        (lowerS (candName base j)).data.length := by rw [h]
    rw [candName_zero_data, lowerS_candName base j hj] at hd
    simp [List.length_append] at hd
  · exfalso
    subst hj
    have hd : (lowerS (candName base i)).data.length =
        (lowerS (candName base 0)).data.length := by rw [h]
    rw [candName_zero_data, lowerS_candName base i hi] at hd
    simp [List.length_append] at hd
  · have hd : (lowerS (candName base i)).data = (lowerS (candName base j)).data := by
      rw [h]
    rw [lowerS_candName base i hi, lowerS_candName base j hj] at hd
    have h3 : (natToDec i).data = (natToDec j).data := List.append_cancel_left hd
    exact natToDec_inj i j (stringExt _ _ h3)

/-- The collision-resolution loop always returns a name whose lowercased
form is unused: among `used.length + 1` candidates with pairwise distinct
lowercased forms, one must be fresh. -/
theorem pickFresh_fresh (base : String) (used : List String) :
    lowerS (pickFresh base used) ∉ used := by
  unfold pickFresh
  rcases hfind : (List.range (used.length + 1)).find?
      (fun k => ¬ used.contains (lowerS (candName base k))) with _ | k
  · exfalso
    have hall : ∀ k ∈ List.range (used.length + 1),
        lowerS (candName base k) ∈ used := by
      intro k hk
      have hthis := List.find?_eq_none.mp hfind k hk
      have h2 : used.contains (lowerS (candName base k)) = true := by
        by_contra hb
        apply hthis
        simp only [Bool.not_eq_true] at hb
        simp only [decide_eq_true_eq, Bool.not_eq_true]
        exact hb
      exact List.elem_iff.mp h2
    set L := (List.range (used.length + 1)).map (fun k => lowerS (candName base k)) with hL
    have hnodup : L.Nodup := by
      refine List.Nodup.map_on ?_ (List.nodup_range _)
      intro x _ y _ hxy
      exact candName_lower_inj base x y hxy
    have hsub : ∀ x ∈ L, x ∈ used := by
      intro x hx
      rcases List.mem_map.mp hx with ⟨k, hk, hkx⟩
      rw [← hkx]
      exact hall k hk
    have hcard1 : L.toFinset.card = used.length + 1 := by
      rw [List.toFinset_card_of_nodup hnodup, hL, List.length_map, List.length_range]
    have hcard2 : L.toFinset.card ≤ used.toFinset.card := by
      refine Finset.card_le_card ?_
      intro x hx
      rw [List.mem_toFinset] at hx ⊢
      exact hsub x hx
    have hcard3 : used.toFinset.card ≤ used.length := used.toFinset_card_le
    omega
  · have hthis := List.find?_some hfind
    have h2 : used.contains (lowerS (candName base k)) = false := by
      by_contra hb
      simp only [Bool.not_eq_false] at hb
      rw [hb] at hthis
      simp at hthis
    show lowerS (candName base k) ∉ used
    intro hmem
    have h3 : used.contains (lowerS (candName base k)) = true := List.elem_iff.mpr hmem
    rw [h3] at h2
    simp at h2

/-- The sanitizer's output names are fresh for the incoming used set and
pairwise distinct after lowercasing. -/
theorem sanitizeAux_sound : ∀ (l : List String) (idx : Nat) (used : List String),
    (∀ x ∈ sanitizeAux l idx used, lowerS x ∉ used) ∧
    (sanitizeAux l idx used).Pairwise (fun a b => lowerS a ≠ lowerS b) := by
  intro l
  induction l with
  | nil => intro idx used; exact ⟨by simp [sanitizeAux], by simp [sanitizeAux]⟩
  | cons h rest ih =>
      intro idx used
      simp only [sanitizeAux]
      constructor
      · intro x hx
        rcases List.mem_cons.mp hx with hx | hx
        · rw [hx]
          exact pickFresh_fresh _ used
        · have := (ih (idx + 1) _).1 x hx
          intro hmem
          exact this (List.mem_cons_of_mem _ hmem)
      · refine List.Pairwise.cons ?_ ((ih (idx + 1) _).2)
        intro y hy
        have := (ih (idx + 1) _).1 y hy
        intro heq
        exact this (by rw [← heq]; exact List.mem_cons_self _ _)

theorem sanitizeHeaders_pairwise (headers : List String) :
    (sanitizeHeaders headers).Pairwise (fun a b => lowerS a ≠ lowerS b) :=
  (sanitizeAux_sound headers 0 []).2

theorem materializeRow_fst (headers cells : List String) :
    (materializeRow headers cells).map Prod.fst = headers := by
  unfold materializeRow
  refine List.map_fst_zip _ _ ?_
  rw [List.length_append, List.length_replicate]
  omega

/-- The function `parseCsv` either returns the empty table or a table whose headers
come from `sanitizeHeaders` and whose rows are materialized against those
headers. -/
theorem parseCsv_cases (text : String) :
    parseCsv text = ⟨[], [], []⟩ ∨
    ∃ (hc : List String) (dataCells : List (List String)),
      parseCsv text =
        ⟨sanitizeHeaders hc, dataCells.map (materializeRow (sanitizeHeaders hc)), hc⟩ := by
  unfold parseCsv
  split
  · exact Or.inl rfl
  · exact Or.inr ⟨_, _, rfl⟩

/-- Claim C8: for every input text, the ParsedTable's headers contain no
case-insensitive duplicates, and every row mapping has exactly the keys
in `headers`, in the same order (short rows having been right-padded with
empty strings). -/
theorem c8_claim (text : String) :
    (parseCsv text).headers.Pairwise (fun a b => lowerS a ≠ lowerS b) ∧
    (∀ row ∈ (parseCsv text).rows, row.map Prod.fst = (parseCsv text).headers) := by
  rcases parseCsv_cases text with h | ⟨hc, dataCells, h⟩
  · rw [h]
    exact ⟨by simp, by simp⟩
  · rw [h]
    refine ⟨sanitizeHeaders_pairwise hc, ?_⟩
    intro row hrow
    rcases List.mem_map.mp hrow with ⟨cells, _, hcells⟩
    rw [← hcells]
    exact materializeRow_fst _ _

/-- Claim C8 witness: the two-line file "Notes,Comments\nabc,def" has
case-insensitively distinct headers and a row keyed exactly by them. -/
theorem c8_witness :
    ([("Notes", "abc"), ("Comments", "def")] : RowMap).map Prod.fst =
      (parseCsv c9exText).headers ∧
    (parseCsv c9exText).headers = ["Notes", "Comments"] :=
  ⟨(c8_claim c9exText).2 [("Notes", "abc"), ("Comments", "def")] (by decide),
   by decide⟩
